import Mathlib

/-!
Shallow embedding of the radiantkit segmentation / particle-extraction core
(src/radiantkit/image.py, segmentation.py, particle.py) and proofs about it.

Conventions used throughout:
* numpy integer sample buffers are modelled as `ℕ`-valued data: flattened
  `List ℕ` where only the value multiset matters, or coordinate-indexed
  functions `Fin d × Fin r × Fin c → ℕ` where geometry matters;
* boolean numpy arrays are `Bool`-valued, and where Python compares them
  against integers (`1 == arr.max()`) True/False are rendered as 1/0;
* Python `assert` failures and raised exceptions are rendered as
  `Option`/`Except` error results;
* voxel aspect ratios (floats that are configuration constants, not results
  of rounding-sensitive computation) are modelled as rationals.
-/

namespace Radiantkit

/-! ## Binarizer neighbourhood-side setter and the adaptive-threshold guard
(src/radiantkit/segmentation.py, BinarizerSettings.local_side;
src/radiantkit/image.py, threshold_adaptive) -/

/-- The `local_side` setter from segmentation.py:
`if 0 != value % 2: value += 1` followed by `self._local_side = value`. -/
def local_side_set (value : ℕ) : ℕ :=
  if value % 2 ≠ 0 then value + 1 else value

/-- The precondition asserted at the top of `threshold_adaptive` in image.py:
`assert 0 == block_size % 2`.  The call proceeds iff this holds. -/
def threshold_adaptive_block_ok (block_size : ℕ) : Prop :=
  block_size % 2 = 0

instance (b : ℕ) : Decidable (threshold_adaptive_block_ok b) := by
  unfold threshold_adaptive_block_ok; infer_instance

/-! ## ImageBinary construction (src/radiantkit/image.py, ImageBinary) -/

/-- Maximum of a flattened sample buffer, `numpy.ndarray.max()`.
Total on `[]` (numpy raises there; all uses below are on nonempty data). -/
def npMax : List ℕ → ℕ
  | [] => 0
  | [x] => x
  | x :: y :: t => max x (npMax (y :: t))

/-- Minimum of a flattened sample buffer, `numpy.ndarray.min()`. -/
def npMin : List ℕ → ℕ
  | [] => 0
  | [x] => x
  | x :: y :: t => min x (npMin (y :: t))

/-- `ImageBinary._rebinarize`: `self._pixels = self._pixels > self._pixels.min()`.
The resulting boolean buffer is rendered with True as 1 and False as 0, which is
how Python evaluates it in the subsequent `1 == self._pixels.max()` assert. -/
def rebinarize (px : List ℕ) : List ℕ :=
  px.map (fun x => if npMin px < x then 1 else 0)

/-- `ImageBinary.__init__(pixels, path, doRebinarize)`:
rebinarize when requested, then `assert 1 == self._pixels.max()`
(the assert runs regardless of `doRebinarize`).  `none` models the
AssertionError, `some` the successfully constructed pixel buffer. -/
def ImageBinary_init (px : List ℕ) (doRebinarize : Bool) : Option (List ℕ) :=
  let px' := if doRebinarize then rebinarize px else px
  if npMax px' = 1 then some px' else none

/-! ## Particle volume (src/radiantkit/particle.py, ParticleBase.volume)

`ParticleBase.total_size` counts the foreground voxels of the particle's
occupancy mask, and `volume` is `int(self.total_size * np.prod(self.aspect))`.
The mask is kept as the set of (bounding-box local) coordinates of its True
voxels; the aspect ratio is one rational per ZYX axis.  `BoundingElement`
(radiantkit.selection) is absent from src/: the bounding-box data a particle
carries is modelled from the spec, see `RoiBox` below. -/

/-- Modelled from the spec: a BoundingRegion is the "axis-aligned minimal box
(per-axis [start, end) ranges) that exactly contains one component's
foreground voxels" (the module defining `BoundingElement` is not in src/). -/
structure RoiBox where
  zmin : ℕ
  ymin : ℕ
  xmin : ℕ
  zmax : ℕ
  ymax : ℕ
  xmax : ℕ
  deriving DecidableEq, Repr

/-- A Particle as built by `ParticleFinder`: the boolean occupancy mask in its
local (cropped) coordinate frame, its bounding region, the voxel aspect ratio
and the originating label index. -/
structure Particle3 where
  mask : Finset (ℕ × ℕ × ℕ)
  roi : RoiBox
  aspect : ℚ × ℚ × ℚ
  idx : ℕ
  deriving DecidableEq

/-- `ParticleBase.total_size`: the count of foreground voxels
(`self.foreground`, the number of True entries of the occupancy mask). -/
def total_size (p : Particle3) : ℕ := p.mask.card

/-- `np.prod(self.aspect)` for the per-axis aspect ratio vector. -/
def aspect_prod (a : ℚ × ℚ × ℚ) : ℚ := a.1 * a.2.1 * a.2.2

/-- Python `int(q)`: truncation toward zero. -/
def int_trunc (q : ℚ) : ℤ := if 0 ≤ q then ⌊q⌋ else -⌊-q⌋

/-- `ParticleBase.volume`: `int(self.total_size * np.prod(self.aspect))`. -/
def volume (p : Particle3) : ℤ :=
  int_trunc ((total_size p : ℚ) * aspect_prod p.aspect)

/-! ## Image load / unload lifecycle (src/radiantkit/image.py, ImageBase)

The state of an `ImageBase` is its (possibly unloaded) pixel buffer plus the
optional backing path.  A file system maps path identifiers to the sample
array stored there (`none` when `os.path.isfile` is false).  Pixel buffers
are kept abstract as flattened `List ℕ` sample data. -/

structure ImageState where
  pixels : Option (List ℕ)
  path_to_local : Option ℕ
  deriving DecidableEq, Repr

/-- A file system: which paths hold a readable TIFF and its sample data. -/
def FileSystem : Type := ℕ → Option (List ℕ)

/-- `ImageBase.__init__(self, pixels, path)`: stores a copy of `pixels`.
The `path` argument is accepted but never assigned anywhere in the body, so
`_path_to_local` keeps its class-level default `None`. -/
def image_init (px : List ℕ) (path : Option ℕ) : ImageState :=
  { pixels := some px, path_to_local := none }

/-- `ImageBase.load_from_local`: asserts the path is set and the file exists,
then evaluates `self.from_tiff(self._path_to_local)` — a static method whose
fresh `ImageBase` return value is discarded, leaving `self` unchanged.
`none` models an AssertionError. -/
def load_from_local (fs : FileSystem) (s : ImageState) : Option ImageState :=
  match s.path_to_local with
  | none => none
  | some p => if (fs p).isSome then some s else none

/-- `ImageBase.unload`: with no backing path, or a path that is not a file,
log an error and return leaving the state untouched; otherwise drop the
pixel buffer. -/
def unload (fs : FileSystem) (s : ImageState) : ImageState :=
  match s.path_to_local with
  | none => s
  | some p => if (fs p).isSome then { s with pixels := none } else s

/-- The `ImageBase.pixels` property: when the buffer is absent and a backing
path is present, run `load_from_local` first, then return `self._pixels`.
Returns the yielded buffer together with the post-access state. -/
def pixels_get (fs : FileSystem) (s : ImageState) :
    Option (List ℕ) × ImageState :=
  match s.pixels, s.path_to_local with
  | none, some _ =>
    match load_from_local fs s with
    | some s2 => (s2.pixels, s2)
    | none => (none, s)
  | _, _ => (s.pixels, s)

/-- A one-file file system: path 0 holds the sample data `[5, 7]`. -/
def fs0 : FileSystem := fun p => if p = 0 then some [5, 7] else none

/-- An image whose buffer `[5, 7]` is backed by the valid path 0 (the state an
image is documented to be in after `from_tiff` on an existing file). -/
def img0 : ImageState := { pixels := some [5, 7], path_to_local := some 0 }

/-! ## Connected-component labelling (`skimage.measure.label`)

`clear_XY_borders` / `clear_Z_borders` (image.py) and
`ImageLabeled._relabel` re-label their result with `skimage.measure.label`,
an external library routine: two voxels belong to the same component when
they are neighbours (full connectivity, the `label` default) and carry the
same non-zero value; components are numbered 1.. in raster-scan order of
first occurrence (scan order = the canonical numbering used by the library).
It is embedded below as `cc_label3`: the label of a voxel is 1 plus the
number of components whose first (smallest raster-index) voxel precedes this
component's first voxel. -/

/-- A 3-D voxel grid index (depth, row, column). -/
abbrev Vox3 (d r c : ℕ) : Type := Fin d × Fin r × Fin c

/-- A 2-D pixel grid index (row, column). -/
abbrev Pix2 (r c : ℕ) : Type := Fin r × Fin c

/-- Full-connectivity adjacency on the 3-D grid: distinct voxels whose
coordinates differ by at most 1 on every axis. -/
def adj3 {d r c : ℕ} (v w : Vox3 d r c) : Prop :=
  v ≠ w ∧ ((v.1 : ℤ) - (w.1 : ℤ)).natAbs ≤ 1 ∧
    ((v.2.1 : ℤ) - (w.2.1 : ℤ)).natAbs ≤ 1 ∧
    ((v.2.2 : ℤ) - (w.2.2 : ℤ)).natAbs ≤ 1

instance {d r c : ℕ} (v w : Vox3 d r c) : Decidable (adj3 v w) := by
  unfold adj3; infer_instance

/-- Same-component step relation of `skimage.measure.label`: adjacent voxels
carrying the same non-zero value. -/
def lrel {d r c : ℕ} (L : Vox3 d r c → ℕ) (v w : Vox3 d r c) : Prop :=
  adj3 v w ∧ L v = L w ∧ L v ≠ 0

instance {d r c : ℕ} (L : Vox3 d r c → ℕ) : DecidableRel (lrel L) := fun _ _ => by
  unfold lrel; infer_instance

/-- One breadth-first expansion step of a voxel set under a step relation. -/
def relStep {ι : Type} [Fintype ι] [DecidableEq ι]
    (R : ι → ι → Prop) [DecidableRel R] (s : Finset ι) : Finset ι :=
  s ∪ Finset.univ.filter (fun w => ∃ v ∈ s, R v w)

/-- The set of elements reachable from `v` under `R`: expanding
`Fintype.card ι` times saturates (proved below), so this is the connected
component of `v`. -/
def relComp {ι : Type} [Fintype ι] [DecidableEq ι]
    (R : ι → ι → Prop) [DecidableRel R] (v : ι) : Finset ι :=
  (relStep R)^[Fintype.card ι] {v}

/-- Raster-scan index of a voxel (depth-major, then row, then column), the
order in which `skimage.measure.label` first meets voxels. -/
def enc {d r c : ℕ} (v : Vox3 d r c) : ℕ :=
  ((v.1 : ℕ) * r + (v.2.1 : ℕ)) * c + (v.2.2 : ℕ)

/-- The raster index of the first voxel of `v`'s component (used to order
component numbering; `d * r * c` bounds every raster index). -/
def compMin {d r c : ℕ} (L : Vox3 d r c → ℕ) (v : Vox3 d r c) : ℕ :=
  (relComp (lrel L) v).fold min (d * r * c) enc

/-- The first-voxel raster indices of all components of `L`. -/
def labelMins {d r c : ℕ} (L : Vox3 d r c → ℕ) : Finset ℕ :=
  (Finset.univ.filter (fun v => L v ≠ 0)).image (compMin L)

/-- `skimage.measure.label` on a 3-D array: background stays 0; a foreground
voxel's label is 1 plus the number of components first met earlier in the
raster scan. -/
def cc_label3 {d r c : ℕ} (L : Vox3 d r c → ℕ) : Vox3 d r c → ℕ := fun v =>
  if L v = 0 then 0
  else 1 + ((labelMins L).filter (fun m => m < compMin L v)).card

/-! ## Border clearing (src/radiantkit/image.py, clear_XY_borders /
clear_Z_borders) -/

/-- The label values appearing at grid positions satisfying `P`
(`np.unique` of the selected faces, pooled into one set). -/
def border_vals {ι : Type} [Fintype ι] (P : ι → Prop) [DecidablePred P]
    (L : ι → ℕ) : Finset ℕ :=
  (Finset.univ.filter P).image L

/-- `for lab in border_labels: L[L == lab] = 0`. -/
def zero_labels {ι : Type} (vals : Finset ℕ) (L : ι → ℕ) : ι → ℕ := fun v =>
  if L v ∈ vals then 0 else L v

/-- Membership on a row or column face of a 3-D stack: the positions pooled
from `L[:, 0, :]`, `L[:, -1, :]`, `L[:, :, 0]`, `L[:, :, -1]`. -/
def onXYFace {d r c : ℕ} (v : Vox3 d r c) : Prop :=
  (v.2.1 : ℕ) = 0 ∨ (v.2.1 : ℕ) = r - 1 ∨ (v.2.2 : ℕ) = 0 ∨ (v.2.2 : ℕ) = c - 1

instance {d r c : ℕ} (v : Vox3 d r c) : Decidable (onXYFace v) := by
  unfold onXYFace; infer_instance

/-- Membership on the first or last depth slice: `L[0, :, :]`, `L[-1, :, :]`. -/
def onZFace {d r c : ℕ} (v : Vox3 d r c) : Prop :=
  (v.1 : ℕ) = 0 ∨ (v.1 : ℕ) = d - 1

instance {d r c : ℕ} (v : Vox3 d r c) : Decidable (onZFace v) := by
  unfold onZFace; infer_instance

/-- `clear_XY_borders` on a 3-D labelled stack: collect every label value
occurring on a row/column face, zero those labels, re-label the result. -/
def clear_XY_borders3 {d r c : ℕ} (L : Vox3 d r c → ℕ) : Vox3 d r c → ℕ :=
  cc_label3 (zero_labels (border_vals onXYFace L) L)

/-- `clear_Z_borders` on a 3-D labelled stack: collect every label value on
the first or last depth slice, zero those labels, re-label the result. -/
def clear_Z_borders3 {d r c : ℕ} (L : Vox3 d r c → ℕ) : Vox3 d r c → ℕ :=
  cc_label3 (zero_labels (border_vals onZFace L) L)

/-- Membership on the border of a 2-D image. -/
def onBorder2 {r c : ℕ} (v : Pix2 r c) : Prop :=
  (v.1 : ℕ) = 0 ∨ (v.1 : ℕ) = r - 1 ∨ (v.2 : ℕ) = 0 ∨ (v.2 : ℕ) = c - 1

instance {r c : ℕ} (v : Pix2 r c) : Decidable (onBorder2 v) := by
  unfold onBorder2; infer_instance

/-- `clear_XY_borders` on a 2-D labelled image delegates to
`skimage.segmentation.clear_border`: every label value occurring on the
image border is zeroed (no re-labelling in this branch). -/
def clear_XY_borders2 {r c : ℕ} (L : Pix2 r c → ℕ) : Pix2 r c → ℕ :=
  zero_labels (border_vals onBorder2 L) L

/-- `clear_Z_borders` on a 2-D image: `if 2 == len(L.shape): return L`. -/
def clear_Z_borders2 {r c : ℕ} (L : Pix2 r c → ℕ) : Pix2 r c → ℕ := L

/-! ## Particle extraction (src/radiantkit/particle.py, ParticleFinder)

`get_particles_from_labeled_image` asserts the labelled image is not
monochromatic (`L.pixels.min() != L.pixels.max()`), then for every distinct
non-zero label in ascending `np.unique` order builds the particle: the
boolean occupancy `L.pixels == particle_label`, its bounding region
(`BoundingElement.from_binary_pixels`, module absent from src/ — modelled
from the spec as the per-axis minimal [start, end) box of the foreground
voxels, applied as a crop into local coordinates), the aspect ratio and the
label index.  The particle subtype constructor chain (axes-aware
`ImageBinary`, also absent from src/) is modelled from the spec as storing
the cropped occupancy mask unchanged. -/

/-- `L.pixels.min() == L.pixels.max()` on a (nonempty) array: all samples
are equal. -/
def monochromatic {d r c : ℕ} (L : Vox3 d r c → ℕ) : Prop := ∀ v w, L v = L w

instance {d r c : ℕ} (L : Vox3 d r c → ℕ) : Decidable (monochromatic L) := by
  unfold monochromatic; infer_instance

/-- The distinct non-zero label values of `L` in ascending order
(`np.unique`, skipping 0). -/
def uniqueNonzero {d r c : ℕ} (L : Vox3 d r c → ℕ) : List ℕ :=
  ((Finset.univ.image L).filter (fun x => x ≠ 0)).sort (· ≤ ·)

/-- The voxels of `L` carrying label `lab` (`L.pixels == particle_label`). -/
def label_voxels {d r c : ℕ} (L : Vox3 d r c → ℕ) (lab : ℕ) :
    Finset (Vox3 d r c) :=
  Finset.univ.filter (fun v => L v = lab)

/-- Per-axis minima/maxima of a voxel set (the grid extent serves as the
fold seed for `min`, bounding every coordinate from above). -/
def vox_zmin {d r c : ℕ} (s : Finset (Vox3 d r c)) : ℕ :=
  s.fold min d (fun v => (v.1 : ℕ))

def vox_ymin {d r c : ℕ} (s : Finset (Vox3 d r c)) : ℕ :=
  s.fold min r (fun v => (v.2.1 : ℕ))

def vox_xmin {d r c : ℕ} (s : Finset (Vox3 d r c)) : ℕ :=
  s.fold min c (fun v => (v.2.2 : ℕ))

def vox_zmax {d r c : ℕ} (s : Finset (Vox3 d r c)) : ℕ :=
  s.fold max 0 (fun v => (v.1 : ℕ))

def vox_ymax {d r c : ℕ} (s : Finset (Vox3 d r c)) : ℕ :=
  s.fold max 0 (fun v => (v.2.1 : ℕ))

def vox_xmax {d r c : ℕ} (s : Finset (Vox3 d r c)) : ℕ :=
  s.fold max 0 (fun v => (v.2.2 : ℕ))

/-- Modelled from the spec: `BoundingElement.from_binary_pixels`, the
minimal per-axis [start, end) box containing the foreground voxels. -/
def roi_of {d r c : ℕ} (s : Finset (Vox3 d r c)) : RoiBox :=
  ⟨vox_zmin s, vox_ymin s, vox_xmin s,
    vox_zmax s + 1, vox_ymax s + 1, vox_xmax s + 1⟩

/-- Modelled from the spec: applying the BoundingRegion as a crop operator,
i.e. translating the foreground voxels into box-local coordinates. -/
def crop_mask {d r c : ℕ} (s : Finset (Vox3 d r c)) : Finset (ℕ × ℕ × ℕ) :=
  s.image (fun v =>
    ((v.1 : ℕ) - vox_zmin s, (v.2.1 : ℕ) - vox_ymin s, (v.2.2 : ℕ) - vox_xmin s))

/-- `ParticleFinder.get_particles_from_labeled_image`. -/
def get_particles_from_labeled_image {d r c : ℕ} (L : Vox3 d r c → ℕ)
    (aspect : ℚ × ℚ × ℚ) : Except String (List Particle3) :=
  if monochromatic L then Except.error "monochromatic image detected."
  else Except.ok ((uniqueNonzero L).map (fun lab =>
    { mask := crop_mask (label_voxels L lab), roi := roi_of (label_voxels L lab),
      aspect := aspect, idx := lab }))

/-- `arr.min()` of a boolean numpy array: False iff some entry is False. -/
def bool_min {d r c : ℕ} (M : Vox3 d r c → Bool) : Bool :=
  decide (∀ v, M v = true)

/-- `ImageLabeled._relabel` input step `pixels > pixels.min()` on a boolean
mask, then integer foreground: the identity mask unless all voxels are True
(in which case everything becomes background). -/
def relabel_bin {d r c : ℕ} (M : Vox3 d r c → Bool) : Vox3 d r c → ℕ :=
  fun v => if bool_min M < M v then 1 else 0

/-- `ParticleFinder.get_particles_from_binary_image`: label the binary image
(`ImageBinary.label` → `ImageLabeled.__init__` with `doRelabel=True`, i.e.
`_relabel` followed by `skimage.measure.label`), then extract. -/
def get_particles_from_binary_image {d r c : ℕ} (M : Vox3 d r c → Bool)
    (aspect : ℚ × ℚ × ℚ) : Except String (List Particle3) :=
  get_particles_from_labeled_image (cc_label3 (relabel_bin M)) aspect

/-! ## Shape descriptor (src/radiantkit/particle.py,
ParticleBase.shape_descriptor)

For a 2-D particle the descriptor is `self.total_size / convex_size` where
`convex_size = convex_hull_image(self._pixels).sum()`
(`skimage.morphology.convex_hull_image`: the pixels inside the smallest
convex polygon surrounding the foreground pixels).  The 2-D occupancy is
kept as the Finset of its foreground pixel coordinates; the hull image is
the set of integer points of the bounding box lying in the convex hull of
the foreground points, decided by Caratheodory: a point is in the hull iff
it lies in a (possibly degenerate) triangle of foreground points.  The 3-D
branch divides an ideal sphere's surface by the marching-cubes mesh surface
area — a floating-point isosurface computation in an external library —
and is represented by the `sphericity` argument; any other dimensionality
yields 0. -/

def pix_xmax (S : Finset (ℕ × ℕ)) : ℕ := S.fold max 0 Prod.fst

def pix_ymax (S : Finset (ℕ × ℕ)) : ℕ := S.fold max 0 Prod.snd

def pix_xmin (S : Finset (ℕ × ℕ)) : ℕ := S.fold min (pix_xmax S) Prod.fst

def pix_ymin (S : Finset (ℕ × ℕ)) : ℕ := S.fold min (pix_ymax S) Prod.snd

/-- Signed area cross product of the triangle a, b, p. -/
def cross2 (a b p : ℕ × ℕ) : ℤ :=
  ((b.1 : ℤ) - (a.1 : ℤ)) * ((p.2 : ℤ) - (a.2 : ℤ)) -
    ((b.2 : ℤ) - (a.2 : ℤ)) * ((p.1 : ℤ) - (a.1 : ℤ))

/-- Closed-triangle membership by consistent orientation signs. -/
def inTriangle (a b c p : ℕ × ℕ) : Prop :=
  (0 ≤ cross2 a b p ∧ 0 ≤ cross2 b c p ∧ 0 ≤ cross2 c a p) ∨
    (cross2 a b p ≤ 0 ∧ cross2 b c p ≤ 0 ∧ cross2 c a p ≤ 0)

instance (a b c p : ℕ × ℕ) : Decidable (inTriangle a b c p) := by
  unfold inTriangle; infer_instance

/-- `skimage.morphology.convex_hull_image` of a 2-D occupancy, as the set of
its foreground pixels: the bounding-box pixels lying in some triangle of
foreground pixels. -/
def convex_hull_image (S : Finset (ℕ × ℕ)) : Finset (ℕ × ℕ) :=
  ((Finset.Icc (pix_xmin S) (pix_xmax S)) ×ˢ
      (Finset.Icc (pix_ymin S) (pix_ymax S))).filter
    (fun p => ∃ a ∈ S, ∃ b ∈ S, ∃ e ∈ S, inTriangle a b e p)

/-- `ParticleBase.shape_descriptor`, dispatching on `len(self.shape)`. -/
def shape_descriptor (ndim : ℕ) (S : Finset (ℕ × ℕ)) (sphericity : ℚ) : ℚ :=
  if ndim = 2 then (S.card : ℚ) / ((convex_hull_image S).card : ℚ)
  else if ndim = 3 then sphericity
  else 0

/-- A one-voxel particle with aspect ratio (1, 1, 1/2). -/
def particle_half : Particle3 :=
  { mask := {(0, 0, 0)}, roi := ⟨0, 0, 0, 1, 1, 1⟩,
    aspect := (1, 1, 1/2), idx := 1 }

/-- A three-voxel particle with unit aspect ratio (1, 1, 1). -/
def particle_unit : Particle3 :=
  { mask := {(0, 0, 0), (0, 0, 1), (0, 1, 0)}, roi := ⟨0, 0, 0, 1, 2, 2⟩,
    aspect := (1, 1, 1), idx := 2 }

/-! # Theorems -/

/-! ## C2 — neighbourhood side parity -/

/-- Claim C2: the spec says an even local-neighbourhood side is silently
corrected to odd and the local adaptive thresholding uses the resulting odd
side.  The code does the opposite: the setter keeps the even value 4
unchanged and bumps the odd default-like value 101 to the even 102, and
`threshold_adaptive` asserts that the block size is even (accepting 4,
rejecting 5) — while the underlying `skimage.filters.threshold_local`
accepts only odd block sizes, so the local-thresholding path can never run.
This theorem evaluates the code at those inputs, exhibiting the slip. -/
theorem local_side_parity_inverted :
    local_side_set 4 = 4 ∧ local_side_set 101 = 102 ∧
      threshold_adaptive_block_ok 4 ∧ ¬ threshold_adaptive_block_ok 5 := by
  refine ⟨rfl, rfl, rfl, ?_⟩
  intro h
  simp [threshold_adaptive_block_ok] at h

/-! ## C9 — ImageBinary max-value invariant -/

/-- Claim C9: whenever an `ImageBinary` is constructed without bypassing
rebinarization (`doRebinarize` left True) and construction succeeds, the
maximum sample value of the stored buffer is exactly 1. -/
theorem ImageBinary_init_max_one (px out : List ℕ)
    (h : ImageBinary_init px true = some out) : npMax out = 1 := by
  unfold ImageBinary_init at h
  by_cases hm : npMax (rebinarize px) = 1
  · simp only [if_true, hm, if_pos] at h
    cases h
    exact hm
  · simp [hm] at h

/-- Witness for C9 at the concrete buffer `[0, 3]`: construction succeeds and
the resulting maximum is 1. -/
theorem ImageBinary_init_max_one_witness :
    ImageBinary_init [0, 3] true = some [0, 1] ∧ npMax [0, 1] = 1 :=
  ⟨by decide, ImageBinary_init_max_one [0, 3] [0, 1] (by decide)⟩

/-! ## C10 — monochromatic inputs and ImageBinary construction -/

/-- Helper: the maximum of a nonempty constant buffer is that constant. -/
theorem npMax_const (px : List ℕ) (v : ℕ) (hne : px ≠ [])
    (hall : ∀ x ∈ px, x = v) : npMax px = v := by
  induction px with
  | nil => exact absurd rfl hne
  | cons x xs ih =>
    cases xs with
    | nil =>
      have := hall x (by simp)
      simpa [npMax] using this
    | cons y t =>
      have hx : x = v := hall x (by simp)
      have ht : npMax (y :: t) = v :=
        ih (by simp) (fun z hz => hall z (by simp [hz]))
      simp [npMax, hx, ht]

/-- Helper: the minimum of a nonempty constant buffer is that constant. -/
theorem npMin_const (px : List ℕ) (v : ℕ) (hne : px ≠ [])
    (hall : ∀ x ∈ px, x = v) : npMin px = v := by
  induction px with
  | nil => exact absurd rfl hne
  | cons x xs ih =>
    cases xs with
    | nil =>
      have := hall x (by simp)
      simpa [npMin] using this
    | cons y t =>
      have hx : x = v := hall x (by simp)
      have ht : npMin (y :: t) = v :=
        ih (by simp) (fun z hz => hall z (by simp [hz]))
      simp [npMin, hx, ht]

/-- Helper: an all-zero buffer has maximum 0. -/
theorem npMax_map_zero (px : List ℕ) (hne : px ≠ []) :
    npMax (px.map fun _ => 0) = 0 := by
  apply npMax_const _ 0
  · simpa using hne
  · intro x hx
    simp at hx
    exact hx.2

/-- Counterexample to claim C10: the claim says every all-equal input array
makes `ImageBinary` construction fail under both `doRebinarize` settings.
The all-ones buffer `[1, 1]` with `doRebinarize=False` is accepted: the
buffer is stored as-is and its maximum is 1, so the assert passes. -/
theorem ImageBinary_init_allones_bypass_succeeds :
    ImageBinary_init [1, 1] false = some [1, 1] := by decide

/-- C10 as amended: for a nonempty all-equal input, construction with
`doRebinarize=True` always fails (rebinarization yields an all-zero mask with
maximum 0); with `doRebinarize=False` it fails exactly when the constant
value differs from 1.  In particular an all-zero (empty-foreground) buffer is
rejected under both settings. -/
theorem ImageBinary_init_monochromatic (px : List ℕ) (v : ℕ)
    (hne : px ≠ []) (hall : ∀ x ∈ px, x = v) :
    ImageBinary_init px true = none ∧
      (ImageBinary_init px false = none ↔ v ≠ 1) := by
  have hmin : npMin px = v := npMin_const px v hne hall
  have hmax : npMax px = v := npMax_const px v hne hall
  constructor
  · unfold ImageBinary_init
    have hreb : rebinarize px = px.map (fun _ => 0) := by
      unfold rebinarize
      apply List.map_congr_left
      intro x hx
      have := hall x hx
      simp [hmin, this]
    have hz : npMax (rebinarize px) = 0 := by
      rw [hreb]
      exact npMax_map_zero px hne
    simp [hz]
  · unfold ImageBinary_init
    simp only [if_false, Bool.false_eq_true]
    rw [hmax]
    constructor
    · intro h hv
      rw [hv] at h
      simp at h
    · intro hv
      simp [hv]

/-! ## C3 — unload / reload round trip -/

/-- Claim C3: the spec says unloading an Image backed by a valid file path
and re-accessing `pixels` reproduces the original sample array.  In the code
`load_from_local` evaluates `self.from_tiff(...)` and discards the fresh
object it returns (and `__init__` never assigns its `path` argument, so a
path-backed state cannot even arise through the constructor).  Evaluating
the code on an image backed by the valid path 0 holding `[5, 7]`: after
`unload`, the `pixels` property yields `none`, not the original array.  The
other half of the claim does hold: with no backing path, `unload` leaves the
state untouched. -/
theorem unload_reload_loses_pixels :
    img0.pixels = some [5, 7] ∧
      (pixels_get fs0 (unload fs0 img0)).1 = none ∧
      (∀ s : ImageState, s.path_to_local = none → unload fs0 s = s) ∧
      (image_init [5, 7] (some 0)).path_to_local = none := by
  refine ⟨rfl, by decide, ?_, rfl⟩
  intro s hs
  unfold unload
  rw [hs]

/-! ## C7 — particle volume vs. voxel count times aspect product -/

/-- Counterexample to claim C7 as stated: `volume` casts through Python
`int(...)`, so for the one-voxel particle with aspect ratio (1, 1, 1/2) the
computed volume is `int(0.5) = 0`, which differs from
`voxel_count * product(aspect_ratio) = 1/2`. -/
theorem volume_ne_count_times_aspect :
    (volume particle_half : ℚ) ≠
      (total_size particle_half : ℚ) * aspect_prod particle_half.aspect := by
  norm_num [volume, int_trunc, total_size, aspect_prod, particle_half]

/-- Claim C7 as amended: for every particle with a nonnegative aspect-ratio
product, `volume` is the integer truncation of
`voxel_count * product(aspect_ratio)` — it is bounded by that product and
within 1 below it — and whenever the aspect product is 1 (in particular for
aspect ratio (1, 1, 1)) the volume equals the raw voxel count exactly. -/
theorem volume_trunc_count_times_aspect (p : Particle3)
    (h : 0 ≤ aspect_prod p.aspect) :
    (volume p : ℚ) ≤ (total_size p : ℚ) * aspect_prod p.aspect ∧
      (total_size p : ℚ) * aspect_prod p.aspect < (volume p : ℚ) + 1 ∧
      (aspect_prod p.aspect = 1 → volume p = total_size p) := by
  have hq : (0 : ℚ) ≤ (total_size p : ℚ) * aspect_prod p.aspect :=
    mul_nonneg (by positivity) h
  have hv : volume p = ⌊(total_size p : ℚ) * aspect_prod p.aspect⌋ := by
    unfold volume int_trunc
    simp [hq]
  refine ⟨?_, ?_, ?_⟩
  · rw [hv]
    exact Int.floor_le _
  · rw [hv]
    exact Int.lt_floor_add_one _
  · intro h1
    rw [hv, h1, mul_one]
    exact Int.floor_natCast _

/-- Witness for C7's amended statement at the concrete particle with unit
aspect ratio: its volume equals its voxel count, 3. -/
theorem volume_trunc_witness :
    (volume particle_unit : ℚ) ≤
        (total_size particle_unit : ℚ) * aspect_prod particle_unit.aspect ∧
      (total_size particle_unit : ℚ) * aspect_prod particle_unit.aspect <
        (volume particle_unit : ℚ) + 1 ∧
      (aspect_prod particle_unit.aspect = 1 →
        volume particle_unit = total_size particle_unit) :=
  volume_trunc_count_times_aspect particle_unit
    (by norm_num [aspect_prod, particle_unit])

/-! ## Helper lemmas: folded minima and saturation of `relStep` iteration -/

/-- The folded minimum is a lower bound on every folded value. -/
theorem fold_min_le_of_mem {α : Type} (t : Finset α) (f : α → ℕ) (b : ℕ)
    (x : α) (hx : x ∈ t) : t.fold min b f ≤ f x :=
  (Finset.fold_min_le _).mpr (Or.inr ⟨x, hx, le_rfl⟩)

/-- The folded minimum is either the seed or attained by an element. -/
theorem fold_min_cases {α : Type} [DecidableEq α] (t : Finset α) (f : α → ℕ)
    (b : ℕ) : t.fold min b f = b ∨ ∃ x ∈ t, t.fold min b f = f x := by
  induction t using Finset.induction_on with
  | empty => left; simp
  | insert ha ih =>
    rename_i a s
    rcases le_total (f a) (s.fold min b f) with h | h
    · right
      exact ⟨a, Finset.mem_insert_self a s, by rw [Finset.fold_insert ha, min_eq_left h]⟩
    · rw [Finset.fold_insert ha, min_eq_right h]
      rcases ih with h0 | ⟨x, hx, he⟩
      · left; exact h0
      · right; exact ⟨x, Finset.mem_insert_of_mem hx, he⟩

/-- The start set stays inside every iterate of an inflationary map. -/
theorem subset_iterate {ι : Type} (g : Finset ι → Finset ι)
    (hg : ∀ s, s ⊆ g s) (s0 : Finset ι) (n : ℕ) : s0 ⊆ g^[n] s0 := by
  induction n with
  | zero => simp
  | succ n ih =>
    rw [Function.iterate_succ_apply']
    exact ih.trans (hg _)

/-- Iterating an inflationary map either hits a fixed point early or keeps
growing in cardinality. -/
theorem iterate_growth {ι : Type} (g : Finset ι → Finset ι)
    (hg : ∀ s, s ⊆ g s) (s0 : Finset ι) (n : ℕ) :
    (∃ k, k < n ∧ g^[k + 1] s0 = g^[k] s0) ∨ s0.card + n ≤ (g^[n] s0).card := by
  induction n with
  | zero => right; simp
  | succ n ih =>
    rcases ih with ⟨k, hk, he⟩ | hcard
    · left; exact ⟨k, Nat.lt_succ_of_lt hk, he⟩
    · by_cases he : g^[n + 1] s0 = g^[n] s0
      · left; exact ⟨n, Nat.lt_succ_self n, he⟩
      · right
        have hsub : g^[n] s0 ⊆ g^[n + 1] s0 := by
          rw [Function.iterate_succ_apply']
          exact hg _
        have hlt : (g^[n] s0).card < (g^[n + 1] s0).card :=
          Finset.card_lt_card (Finset.ssubset_iff_subset_ne.mpr ⟨hsub, Ne.symm he⟩)
        omega

/-- Once an iterate repeats, all later iterates agree with it. -/
theorem iterate_stab {ι : Type} (g : Finset ι → Finset ι) (s0 : Finset ι)
    (k : ℕ) (he : g^[k + 1] s0 = g^[k] s0) (m : ℕ) (hm : k ≤ m) :
    g^[m] s0 = g^[k] s0 := by
  induction m with
  | zero =>
    have : k = 0 := Nat.le_zero.mp hm
    rw [this]
  | succ m ih =>
    rcases Nat.lt_succ_iff_lt_or_eq.mp (Nat.lt_succ_of_le hm) with h | h
    · have hkm : k ≤ m := Nat.lt_succ_iff.mp h
      have h2 := ih hkm
      rw [Function.iterate_succ_apply', h2,
        show g (g^[k] s0) = g^[k + 1] s0 from
          (Function.iterate_succ_apply' g k s0).symm, he]
    · rw [← h]

/-- After `Fintype.card ι` expansions the iterate is a fixed point. -/
theorem iterate_card_fixed {ι : Type} [Fintype ι] [DecidableEq ι]
    (g : Finset ι → Finset ι) (hg : ∀ s, s ⊆ g s) (s0 : Finset ι) :
    g (g^[Fintype.card ι] s0) = g^[Fintype.card ι] s0 := by
  rcases iterate_growth g hg s0 (Fintype.card ι + 1) with ⟨k, hk, he⟩ | hcard
  · have hkN : k ≤ Fintype.card ι := Nat.lt_succ_iff.mp hk
    have hN : g^[Fintype.card ι] s0 = g^[k] s0 := iterate_stab g s0 k he _ hkN
    have hN1 : g^[Fintype.card ι + 1] s0 = g^[k] s0 :=
      iterate_stab g s0 k he _ (Nat.le_succ_of_le hkN)
    rw [show g (g^[Fintype.card ι] s0) = g^[Fintype.card ι + 1] s0 from
      (Function.iterate_succ_apply' g _ s0).symm, hN, hN1]
  · exfalso
    have hb : (g^[Fintype.card ι + 1] s0).card ≤ Fintype.card ι :=
      Finset.card_le_univ _
    omega

/-- `relComp R v` is exactly the set of elements reachable from `v`. -/
theorem mem_relComp {ι : Type} [Fintype ι] [DecidableEq ι]
    (R : ι → ι → Prop) [DecidableRel R] (v w : ι) :
    w ∈ relComp R v ↔ Relation.ReflTransGen R v w := by
  constructor
  · suffices h : ∀ n, ∀ u ∈ (relStep R)^[n] ({v} : Finset ι),
        Relation.ReflTransGen R v u from h _ w
    intro n
    induction n with
    | zero =>
      intro u hu
      simp only [Function.iterate_zero_apply, Finset.mem_singleton] at hu
      rw [hu]
    | succ n ih =>
      intro u hu
      rw [Function.iterate_succ_apply'] at hu
      unfold relStep at hu
      rcases Finset.mem_union.mp hu with h1 | h2
      · exact ih u h1
      · obtain ⟨-, x, hx, hR⟩ := Finset.mem_filter.mp h2
        exact (ih x hx).tail hR
  · intro h
    induction h with
    | refl =>
      exact subset_iterate (relStep R) (fun s => Finset.subset_union_left)
        {v} (Fintype.card ι) (Finset.mem_singleton_self v)
    | tail _ hbc ih =>
      rw [relComp, ← iterate_card_fixed (relStep R)
        (fun s => Finset.subset_union_left) {v}]
      unfold relStep
      rename_i b c2 _
      refine Finset.mem_union.mpr (Or.inr (Finset.mem_filter.mpr
        ⟨Finset.mem_univ _, b, ?_, hbc⟩))
      exact ih

/-! ## Structure of `cc_label3` components -/

/-- The same-component step relation is symmetric. -/
theorem lrel_symm {d r c : ℕ} (L : Vox3 d r c → ℕ) : Symmetric (lrel L) := by
  rintro v w ⟨⟨hne, hz, hy, hx⟩, heq, h0⟩
  refine ⟨⟨Ne.symm hne, ?_, ?_, ?_⟩, heq.symm, heq ▸ h0⟩
  · omega
  · omega
  · omega

/-- Reachability under `lrel` is symmetric. -/
theorem conn_symm {d r c : ℕ} (L : Vox3 d r c → ℕ) {v w : Vox3 d r c}
    (h : Relation.ReflTransGen (lrel L) v w) :
    Relation.ReflTransGen (lrel L) w v :=
  Relation.ReflTransGen.symmetric (lrel_symm L) h

/-- Label values are constant along a component. -/
theorem conn_values {d r c : ℕ} (L : Vox3 d r c → ℕ) {v w : Vox3 d r c}
    (h : Relation.ReflTransGen (lrel L) v w) : L v = L w := by
  induction h with
  | refl => rfl
  | tail _ hbc ih => exact ih.trans hbc.2.1

/-- Connected voxels have the same component set. -/
theorem relComp_eq_of_conn {d r c : ℕ} (L : Vox3 d r c → ℕ) {v w : Vox3 d r c}
    (h : Relation.ReflTransGen (lrel L) v w) :
    relComp (lrel L) v = relComp (lrel L) w := by
  ext x
  rw [mem_relComp, mem_relComp]
  constructor
  · intro hvx
    exact (conn_symm L h).trans hvx
  · intro hwx
    exact h.trans hwx

/-- Every element belongs to its own component set. -/
theorem self_mem_relComp {ι : Type} [Fintype ι] [DecidableEq ι]
    (R : ι → ι → Prop) [DecidableRel R] (v : ι) : v ∈ relComp R v :=
  (mem_relComp R v v).mpr Relation.ReflTransGen.refl

/-- The raster index is bounded by the grid size. -/
theorem enc_lt {d r c : ℕ} (v : Vox3 d r c) : enc v < d * r * c := by
  obtain ⟨z, y, x⟩ := v
  have hz : (z : ℕ) < d := z.isLt
  have hy : (y : ℕ) < r := y.isLt
  have hx : (x : ℕ) < c := x.isLt
  unfold enc
  have h1 : (z : ℕ) * r + (y : ℕ) + 1 ≤ d * r := by
    calc (z : ℕ) * r + (y : ℕ) + 1 ≤ (z : ℕ) * r + r := by omega
    _ = ((z : ℕ) + 1) * r := by ring
    _ ≤ d * r := Nat.mul_le_mul_right r hz
  calc ((z : ℕ) * r + (y : ℕ)) * c + (x : ℕ)
      < ((z : ℕ) * r + (y : ℕ)) * c + c := by omega
    _ = ((z : ℕ) * r + (y : ℕ) + 1) * c := by ring
    _ ≤ (d * r) * c := Nat.mul_le_mul_right c h1

/-- Base-`c` digit splitting: quotient and remainder determine the parts. -/
theorem digit_inj (a b x y m : ℕ) (hx : x < m) (hy : y < m)
    (h : a * m + x = b * m + y) : a = b ∧ x = y := by
  have hxm : (a * m + x) % m = x := by
    rw [Nat.add_comm, Nat.mul_comm, Nat.add_mul_mod_self_left,
      Nat.mod_eq_of_lt hx]
  have hym : (b * m + y) % m = y := by
    rw [Nat.add_comm, Nat.mul_comm, Nat.add_mul_mod_self_left,
      Nat.mod_eq_of_lt hy]
  have hxy : x = y := by rw [← hxm, h, hym]
  have hab : a * m = b * m := by omega
  have hm : 0 < m := lt_of_le_of_lt (Nat.zero_le x) hx
  exact ⟨Nat.eq_of_mul_eq_mul_right hm hab, hxy⟩

/-- The raster index is injective. -/
theorem enc_inj {d r c : ℕ} (v w : Vox3 d r c) (h : enc v = enc w) : v = w := by
  obtain ⟨z, y, x⟩ := v
  obtain ⟨z2, y2, x2⟩ := w
  unfold enc at h
  obtain ⟨h1, h2⟩ := digit_inj _ _ _ _ c x.isLt x2.isLt h
  obtain ⟨h3, h4⟩ := digit_inj _ _ _ _ r y.isLt y2.isLt h1
  simp only [Prod.mk.injEq]
  exact ⟨Fin.ext h3, Fin.ext h4, Fin.ext h2⟩

/-- `compMin` is attained at a voxel of the component. -/
theorem compMin_attained {d r c : ℕ} (L : Vox3 d r c → ℕ) (v : Vox3 d r c) :
    ∃ u ∈ relComp (lrel L) v, compMin L v = enc u := by
  rcases fold_min_cases (relComp (lrel L) v) enc (d * r * c) with h | h
  · exfalso
    have hle : (relComp (lrel L) v).fold min (d * r * c) enc ≤ enc v :=
      fold_min_le_of_mem _ enc _ v (self_mem_relComp (lrel L) v)
    have hlt := enc_lt v
    omega
  · exact h

/-- Connected voxels share their component's first raster index. -/
theorem compMin_eq_of_conn {d r c : ℕ} (L : Vox3 d r c → ℕ) {v w : Vox3 d r c}
    (h : Relation.ReflTransGen (lrel L) v w) : compMin L v = compMin L w := by
  unfold compMin
  rw [relComp_eq_of_conn L h]

/-- Within a finite set of naturals, the strict-lower-cut cardinality
determines the element. -/
theorem rank_inj (S : Finset ℕ) (a b : ℕ) (ha : a ∈ S) (hb : b ∈ S)
    (h : (S.filter (fun m => m < a)).card = (S.filter (fun m => m < b)).card) :
    a = b := by
  rcases lt_trichotomy a b with hab | hab | hab
  · exfalso
    have hsub : S.filter (fun m => m < a) ⊂ S.filter (fun m => m < b) := by
      refine Finset.ssubset_iff_subset_ne.mpr ⟨?_, ?_⟩
      · intro m hm
        rw [Finset.mem_filter] at hm ⊢
        exact ⟨hm.1, lt_trans hm.2 hab⟩
      · intro hcontra
        have hmem : a ∈ S.filter (fun m => m < b) :=
          Finset.mem_filter.mpr ⟨ha, hab⟩
        rw [← hcontra] at hmem
        exact lt_irrefl a (Finset.mem_filter.mp hmem).2
    exact absurd h (Nat.ne_of_lt (Finset.card_lt_card hsub))
  · exact hab
  · exfalso
    have hsub : S.filter (fun m => m < b) ⊂ S.filter (fun m => m < a) := by
      refine Finset.ssubset_iff_subset_ne.mpr ⟨?_, ?_⟩
      · intro m hm
        rw [Finset.mem_filter] at hm ⊢
        exact ⟨hm.1, lt_trans hm.2 hab⟩
      · intro hcontra
        have hmem : b ∈ S.filter (fun m => m < a) :=
          Finset.mem_filter.mpr ⟨hb, hab⟩
        rw [← hcontra] at hmem
        exact lt_irrefl b (Finset.mem_filter.mp hmem).2
    exact absurd h.symm (Nat.ne_of_lt (Finset.card_lt_card hsub))

/-- A foreground voxel's component head index belongs to `labelMins`. -/
theorem compMin_mem_labelMins {d r c : ℕ} (L : Vox3 d r c → ℕ)
    (v : Vox3 d r c) (hv : L v ≠ 0) : compMin L v ∈ labelMins L :=
  Finset.mem_image.mpr
    ⟨v, Finset.mem_filter.mpr ⟨Finset.mem_univ v, hv⟩, rfl⟩

/-- Foreground voxels receive equal labels exactly when they are connected. -/
theorem cc_label3_eq_iff {d r c : ℕ} (L : Vox3 d r c → ℕ) (v w : Vox3 d r c)
    (hv : L v ≠ 0) (hw : L w ≠ 0) :
    cc_label3 L v = cc_label3 L w ↔ Relation.ReflTransGen (lrel L) v w := by
  unfold cc_label3
  rw [if_neg hv, if_neg hw]
  constructor
  · intro h
    have hcards : ((labelMins L).filter (fun m => m < compMin L v)).card =
        ((labelMins L).filter (fun m => m < compMin L w)).card := by omega
    have hmins : compMin L v = compMin L w :=
      rank_inj (labelMins L) _ _ (compMin_mem_labelMins L v hv)
        (compMin_mem_labelMins L w hw) hcards
    obtain ⟨u, hu, hequ⟩ := compMin_attained L v
    obtain ⟨u2, hu2, hequ2⟩ := compMin_attained L w
    have henc : enc u = enc u2 := by rw [← hequ, ← hequ2, hmins]
    have huu : u = u2 := enc_inj u u2 henc
    have h1 : Relation.ReflTransGen (lrel L) v u := (mem_relComp _ _ _).mp hu
    have h2 : Relation.ReflTransGen (lrel L) w u2 := (mem_relComp _ _ _).mp hu2
    rw [← huu] at h2
    exact h1.trans (conn_symm L h2)
  · intro h
    rw [compMin_eq_of_conn L h]

/-- `cc_label3` preserves the background/foreground split. -/
theorem cc_label3_eq_zero_iff {d r c : ℕ} (L : Vox3 d r c → ℕ)
    (v : Vox3 d r c) : cc_label3 L v = 0 ↔ L v = 0 := by
  unfold cc_label3
  by_cases h : L v = 0
  · simp [h]
  · simp [h]

/-! ## Idempotence of `cc_label3` -/

/-- Re-labelling leaves the step relation unchanged: two adjacent voxels are
equal-and-foreground under the new labels iff they were under the old. -/
theorem lrel_cc_label3 {d r c : ℕ} (L : Vox3 d r c → ℕ) (v w : Vox3 d r c) :
    lrel (cc_label3 L) v w ↔ lrel L v w := by
  constructor
  · rintro ⟨hadj, heq, hne⟩
    have hv : L v ≠ 0 := fun h0 => hne ((cc_label3_eq_zero_iff L v).mpr h0)
    have hw : L w ≠ 0 := by
      intro h0
      have : cc_label3 L w = 0 := (cc_label3_eq_zero_iff L w).mpr h0
      rw [heq] at hne
      exact hne this
    have hconn : Relation.ReflTransGen (lrel L) v w :=
      (cc_label3_eq_iff L v w hv hw).mp heq
    exact ⟨hadj, conn_values L hconn, hv⟩
  · rintro ⟨hadj, heq, hne⟩
    have hw : L w ≠ 0 := heq ▸ hne
    have hconn : Relation.ReflTransGen (lrel L) v w :=
      Relation.ReflTransGen.single ⟨hadj, heq, hne⟩
    refine ⟨hadj, (cc_label3_eq_iff L v w hne hw).mpr hconn, ?_⟩
    intro h0
    exact hne ((cc_label3_eq_zero_iff L v).mp h0)

/-- Re-labelling leaves connectivity unchanged. -/
theorem conn_cc_label3 {d r c : ℕ} (L : Vox3 d r c → ℕ) (v w : Vox3 d r c) :
    Relation.ReflTransGen (lrel (cc_label3 L)) v w ↔
      Relation.ReflTransGen (lrel L) v w := by
  constructor
  · intro h
    exact Relation.ReflTransGen.mono
      (fun a b hab => (lrel_cc_label3 L a b).mp hab) h
  · intro h
    exact Relation.ReflTransGen.mono
      (fun a b hab => (lrel_cc_label3 L a b).mpr hab) h

/-- Re-labelling leaves every component set unchanged. -/
theorem relComp_cc_label3 {d r c : ℕ} (L : Vox3 d r c → ℕ) (v : Vox3 d r c) :
    relComp (lrel (cc_label3 L)) v = relComp (lrel L) v := by
  ext x
  rw [mem_relComp, mem_relComp, conn_cc_label3]

/-- Re-labelling leaves every component head index unchanged. -/
theorem compMin_cc_label3 {d r c : ℕ} (L : Vox3 d r c → ℕ) (v : Vox3 d r c) :
    compMin (cc_label3 L) v = compMin L v := by
  unfold compMin
  rw [relComp_cc_label3]

/-- Re-labelling leaves the set of component head indices unchanged. -/
theorem labelMins_cc_label3 {d r c : ℕ} (L : Vox3 d r c → ℕ) :
    labelMins (cc_label3 L) = labelMins L := by
  unfold labelMins
  have hfilter : Finset.univ.filter (fun v : Vox3 d r c => cc_label3 L v ≠ 0) =
      Finset.univ.filter (fun v => L v ≠ 0) := by
    apply Finset.filter_congr
    intro v _
    rw [Ne, Ne, cc_label3_eq_zero_iff]
  rw [hfilter]
  apply Finset.image_congr
  intro v _
  exact compMin_cc_label3 L v

/-- `skimage.measure.label` is idempotent: labelling a canonically labelled
image reproduces it. -/
theorem cc_label3_idem {d r c : ℕ} (L : Vox3 d r c → ℕ) :
    cc_label3 (cc_label3 L) = cc_label3 L := by
  funext v
  by_cases hv : L v = 0
  · have h1 : cc_label3 L v = 0 := (cc_label3_eq_zero_iff L v).mpr hv
    rw [h1]
    exact (cc_label3_eq_zero_iff (cc_label3 L) v).mpr h1
  · have h1 : cc_label3 L v ≠ 0 :=
      fun h0 => hv ((cc_label3_eq_zero_iff L v).mp h0)
    show (if cc_label3 L v = 0 then 0
      else 1 + ((labelMins (cc_label3 L)).filter
        (fun m => m < compMin (cc_label3 L) v)).card) = cc_label3 L v
    rw [if_neg h1, labelMins_cc_label3, compMin_cc_label3]
    show 1 + ((labelMins L).filter (fun m => m < compMin L v)).card
      = cc_label3 L v
    unfold cc_label3
    rw [if_neg hv]

/-! ## Border clearing: support and idempotence -/

/-- Zeroing a value set that is all zero is the identity. -/
theorem zero_labels_of_all_zero {ι : Type} (vals : Finset ℕ) (N : ι → ℕ)
    (hva : ∀ b ∈ vals, b = 0) : zero_labels vals N = N := by
  funext v
  unfold zero_labels
  by_cases h : N v ∈ vals
  · rw [if_pos h, hva _ h]
  · rw [if_neg h]

/-- Every border value of an image whose border is background is zero. -/
theorem border_vals_all_zero {ι : Type} [Fintype ι] (P : ι → Prop)
    [DecidablePred P] (N : ι → ℕ) (hN : ∀ v, P v → N v = 0) :
    ∀ b ∈ border_vals P N, b = 0 := by
  intro b hb
  obtain ⟨w, hw, hwb⟩ := Finset.mem_image.mp hb
  rw [← hwb]
  exact hN w (Finset.mem_filter.mp hw).2

/-- After zeroing the border labels and re-labelling, all selected border
positions are background. -/
theorem cleared_border_is_zero {d r c : ℕ} (P : Vox3 d r c → Prop)
    [DecidablePred P] (L : Vox3 d r c → ℕ) (v : Vox3 d r c) (hv : P v) :
    cc_label3 (zero_labels (border_vals P L) L) v = 0 := by
  rw [cc_label3_eq_zero_iff]
  unfold zero_labels
  rw [if_pos]
  exact Finset.mem_image.mpr
    ⟨v, Finset.mem_filter.mpr ⟨Finset.mem_univ v, hv⟩, rfl⟩

/-- Generic idempotence of zero-then-relabel border clearing on 3-D stacks. -/
theorem clear3_generic_idem {d r c : ℕ} (P : Vox3 d r c → Prop)
    [DecidablePred P] (L : Vox3 d r c → ℕ) :
    cc_label3 (zero_labels
        (border_vals P (cc_label3 (zero_labels (border_vals P L) L)))
        (cc_label3 (zero_labels (border_vals P L) L))) =
      cc_label3 (zero_labels (border_vals P L) L) := by
  have hz : zero_labels
      (border_vals P (cc_label3 (zero_labels (border_vals P L) L)))
      (cc_label3 (zero_labels (border_vals P L) L)) =
      cc_label3 (zero_labels (border_vals P L) L) :=
    zero_labels_of_all_zero _ _
      (border_vals_all_zero P _ (fun v hv => cleared_border_is_zero P L v hv))
  rw [hz, cc_label3_idem]

/-! ## C4 — what XY/Z border clearing removes and preserves -/

/-- Claim C4: on a 3-D labelled stack, `clear_XY_borders` leaves a voxel in
the foreground exactly when its label is non-zero and no voxel carrying the
same label lies on a row or column face — so exactly the labels with a
voxel on a row/column face are removed, and every component meeting only
the first/last depth slice survives (with a possibly renumbered label from
the final re-labelling); and on a 2-D image `clear_Z_borders` returns the
image unchanged. -/
theorem clear_XY_removes_face_labels (d r c r2 c2 : ℕ)
    (L : Vox3 d r c → ℕ) (L2 : Pix2 r2 c2 → ℕ) :
    (∀ v : Vox3 d r c, clear_XY_borders3 L v ≠ 0 ↔
      (L v ≠ 0 ∧ ¬ ∃ w : Vox3 d r c, onXYFace w ∧ L w = L v)) ∧
      clear_Z_borders2 L2 = L2 := by
  constructor
  · intro v
    unfold clear_XY_borders3
    rw [Ne, cc_label3_eq_zero_iff]
    unfold zero_labels
    by_cases h : L v ∈ border_vals onXYFace L
    · rw [if_pos h]
      simp only [ne_eq, not_true_eq_false, false_iff, not_and, not_not]
      intro hv
      obtain ⟨w, hw, hwb⟩ := Finset.mem_image.mp h
      exact ⟨w, (Finset.mem_filter.mp hw).2, hwb⟩
    · rw [if_neg h]
      constructor
      · intro hv
        refine ⟨hv, ?_⟩
        intro ⟨w, hwP, hwv⟩
        exact h (Finset.mem_image.mpr
          ⟨w, Finset.mem_filter.mpr ⟨Finset.mem_univ w, hwP⟩, hwv⟩)
      · intro ⟨hv, _⟩
        exact hv
  · rfl

/-! ## C5 — idempotence of border clearing -/

/-- Claim C5: border clearing is idempotent — applying `clear_XY_borders` or
`clear_Z_borders` twice yields the same labelled image as applying it once,
on 3-D stacks (where the cleared image is re-labelled) as well as on 2-D
images (where XY clearing zeroes border labels and Z clearing is the
identity). -/
theorem clear_borders_idempotent (d r c r2 c2 : ℕ)
    (L : Vox3 d r c → ℕ) (L2 : Pix2 r2 c2 → ℕ) :
    clear_XY_borders3 (clear_XY_borders3 L) = clear_XY_borders3 L ∧
      clear_Z_borders3 (clear_Z_borders3 L) = clear_Z_borders3 L ∧
      clear_XY_borders2 (clear_XY_borders2 L2) = clear_XY_borders2 L2 ∧
      clear_Z_borders2 (clear_Z_borders2 L2) = clear_Z_borders2 L2 := by
  refine ⟨clear3_generic_idem onXYFace L, clear3_generic_idem onZFace L, ?_, rfl⟩
  have hborder : ∀ v : Pix2 r2 c2, onBorder2 v → clear_XY_borders2 L2 v = 0 := by
    intro v hv
    unfold clear_XY_borders2 zero_labels
    rw [if_pos]
    exact Finset.mem_image.mpr
      ⟨v, Finset.mem_filter.mpr ⟨Finset.mem_univ v, hv⟩, rfl⟩
  show zero_labels (border_vals onBorder2 (clear_XY_borders2 L2))
    (clear_XY_borders2 L2) = clear_XY_borders2 L2
  exact zero_labels_of_all_zero _ _
    (border_vals_all_zero onBorder2 _ hborder)

/-! ## Particle extraction: C1 and C6 -/

/-- Coordinate minima bound the members of a voxel set. -/
theorem vox_mins_le {d r c : ℕ} (s : Finset (Vox3 d r c)) (v : Vox3 d r c)
    (hv : v ∈ s) : vox_zmin s ≤ (v.1 : ℕ) ∧ vox_ymin s ≤ (v.2.1 : ℕ) ∧
      vox_xmin s ≤ (v.2.2 : ℕ) :=
  ⟨fold_min_le_of_mem s _ d v hv, fold_min_le_of_mem s _ r v hv,
    fold_min_le_of_mem s _ c v hv⟩

/-- Cropping to the bounding region preserves the foreground voxel count. -/
theorem crop_mask_card {d r c : ℕ} (s : Finset (Vox3 d r c)) :
    (crop_mask s).card = s.card := by
  unfold crop_mask
  apply Finset.card_image_of_injOn
  intro a ha b hb hab
  obtain ⟨haz, hay, hax⟩ := vox_mins_le s a ha
  obtain ⟨hbz, hby, hbx⟩ := vox_mins_le s b hb
  simp only [Prod.mk.injEq] at hab
  obtain ⟨h1, h2, h3⟩ := hab
  have hz : (a.1 : ℕ) = (b.1 : ℕ) := by omega
  have hy : (a.2.1 : ℕ) = (b.2.1 : ℕ) := by omega
  have hx : (a.2.2 : ℕ) = (b.2.2 : ℕ) := by omega
  obtain ⟨az, ay, ax⟩ := a
  obtain ⟨bz, by2, bx⟩ := b
  simp only [Prod.mk.injEq]
  exact ⟨Fin.ext hz, Fin.ext hy, Fin.ext hx⟩

/-- Claim C6: particle extraction from a labelled image fails with the
monochromatic-image error exactly when all samples of the image are equal
(`L.pixels.min() == L.pixels.max()`); on every non-monochromatic image the
assert passes and extraction returns a particle list. -/
theorem get_particles_error_iff_monochromatic {d r c : ℕ}
    (L : Vox3 d r c → ℕ) (aspect : ℚ × ℚ × ℚ) :
    (get_particles_from_labeled_image L aspect =
      Except.error "monochromatic image detected.") ↔ monochromatic L := by
  unfold get_particles_from_labeled_image
  by_cases h : monochromatic L
  · simp [h]
  · simp [h]

/-- Claim C1: labelling a binary mask and extracting
(`get_particles_from_binary_image`, i.e. `label` then
`get_particles_from_labeled_image`) yields, when the labelled image passes
the monochromatic guard, exactly one particle per distinct non-zero label of
the labelled image (in ascending label order), and each particle's
foreground voxel count equals the number of voxels bearing that label in
the labelled source. -/
theorem get_particles_one_per_label (d r c : ℕ) (M : Vox3 d r c → Bool)
    (aspect : ℚ × ℚ × ℚ)
    (h : ¬ monochromatic (cc_label3 (relabel_bin M))) :
    ∃ ps, get_particles_from_binary_image M aspect = Except.ok ps ∧
      ps.map Particle3.idx = uniqueNonzero (cc_label3 (relabel_bin M)) ∧
      ∀ p ∈ ps, p.mask.card =
        (label_voxels (cc_label3 (relabel_bin M)) p.idx).card := by
  unfold get_particles_from_binary_image get_particles_from_labeled_image
  rw [if_neg h]
  refine ⟨_, rfl, ?_, ?_⟩
  · rw [List.map_map]
    exact List.map_id _
  · intro p hp
    obtain ⟨lab, hlab, hmk⟩ := List.mem_map.mp hp
    rw [← hmk]
    exact crop_mask_card _

/-- Witness for C1 on the 1×1×2 mask with foreground only at column 0: one
particle is produced, its index is the single non-zero label, and its voxel
count matches. -/
theorem get_particles_one_per_label_witness :
    ∃ ps, get_particles_from_binary_image
        (fun v : Vox3 1 1 2 => decide ((v.2.2 : ℕ) = 0)) (1, 1, 1) =
        Except.ok ps ∧
      ps.map Particle3.idx = uniqueNonzero
        (cc_label3 (relabel_bin
          (fun v : Vox3 1 1 2 => decide ((v.2.2 : ℕ) = 0)))) ∧
      ∀ p ∈ ps, p.mask.card =
        (label_voxels (cc_label3 (relabel_bin
          (fun v : Vox3 1 1 2 => decide ((v.2.2 : ℕ) = 0)))) p.idx).card :=
  get_particles_one_per_label 1 1 2 _ _ (by decide)

/-! ## C8 — shape descriptor range and convexity -/

/-- The folded maximum is an upper bound on every folded value. -/
theorem le_fold_max_of_mem {α : Type} (t : Finset α) (f : α → ℕ) (b : ℕ)
    (x : α) (hx : x ∈ t) : f x ≤ t.fold max b f :=
  (Finset.le_fold_max _).mpr (Or.inr ⟨x, hx, le_rfl⟩)

/-- Every foreground pixel lies in its own convex hull image. -/
theorem subset_convex_hull_image (S : Finset (ℕ × ℕ)) :
    S ⊆ convex_hull_image S := by
  intro p hp
  unfold convex_hull_image
  refine Finset.mem_filter.mpr ⟨?_, p, hp, p, hp, p, hp, ?_⟩
  · refine Finset.mem_product.mpr ⟨?_, ?_⟩
    · exact Finset.mem_Icc.mpr
        ⟨fold_min_le_of_mem S Prod.fst (pix_xmax S) p hp,
          le_fold_max_of_mem S Prod.fst 0 p hp⟩
    · exact Finset.mem_Icc.mpr
        ⟨fold_min_le_of_mem S Prod.snd (pix_ymax S) p hp,
          le_fold_max_of_mem S Prod.snd 0 p hp⟩
  · left
    refine ⟨?_, ?_, ?_⟩ <;> simp [cross2]

/-- Claim C8: for a 2-D occupancy mask the shape descriptor is the
foreground area divided by its convex-hull area, lies in (0, 1], and equals
1 exactly when the occupancy is perfectly convex (it coincides with its own
convex hull image); for a particle whose dimensionality is neither 2 nor 3
the descriptor is 0. -/
theorem shape_descriptor_range (ndim : ℕ) (S : Finset (ℕ × ℕ)) (sph : ℚ) :
    (ndim = 2 → S.Nonempty →
      shape_descriptor ndim S sph =
          (S.card : ℚ) / ((convex_hull_image S).card : ℚ) ∧
        0 < shape_descriptor ndim S sph ∧ shape_descriptor ndim S sph ≤ 1 ∧
        (shape_descriptor ndim S sph = 1 ↔ S = convex_hull_image S)) ∧
      (ndim ≠ 2 → ndim ≠ 3 → shape_descriptor ndim S sph = 0) := by
  constructor
  · intro h2 hne
    subst h2
    have hsub := subset_convex_hull_image S
    have hcard : S.card ≤ (convex_hull_image S).card := Finset.card_le_card hsub
    have hSpos : 0 < S.card := Finset.card_pos.mpr hne
    have hHpos : 0 < (convex_hull_image S).card := lt_of_lt_of_le hSpos hcard
    have hsd : shape_descriptor 2 S sph =
        (S.card : ℚ) / ((convex_hull_image S).card : ℚ) := by
      unfold shape_descriptor
      rw [if_pos rfl]
    have hH0 : ((convex_hull_image S).card : ℚ) ≠ 0 := by
      exact_mod_cast Nat.pos_iff_ne_zero.mp hHpos
    refine ⟨hsd, ?_, ?_, ?_⟩
    · rw [hsd]
      apply div_pos
      · exact_mod_cast hSpos
      · exact_mod_cast hHpos
    · rw [hsd]
      rw [div_le_one (by exact_mod_cast hHpos)]
      exact_mod_cast hcard
    · rw [hsd]
      constructor
      · intro h1
        have hc : (convex_hull_image S).card ≤ S.card := by
          field_simp at h1
          omega
        exact Finset.eq_of_subset_of_card_le hsub hc
      · intro hSH
        rw [← hSH]
        exact div_self (by exact_mod_cast Nat.pos_iff_ne_zero.mp hSpos)
  · intro hn2 hn3
    unfold shape_descriptor
    rw [if_neg hn2, if_neg hn3]

/-- Witness for C8 at the one-pixel occupancy (2-D case) and at
dimensionality 5 (degenerate case). -/
theorem shape_descriptor_range_witness :
    (shape_descriptor 2 {(0, 0)} 0 =
        (({(0, 0)} : Finset (ℕ × ℕ)).card : ℚ) /
          ((convex_hull_image {(0, 0)}).card : ℚ) ∧
      0 < shape_descriptor 2 {(0, 0)} 0 ∧ shape_descriptor 2 {(0, 0)} 0 ≤ 1 ∧
      (shape_descriptor 2 {(0, 0)} 0 = 1 ↔
        ({(0, 0)} : Finset (ℕ × ℕ)) = convex_hull_image {(0, 0)})) ∧
      shape_descriptor 5 {(0, 0)} 0 = 0 :=
  ⟨(shape_descriptor_range 2 {(0, 0)} 0).1 rfl ⟨(0, 0), Finset.mem_singleton_self _⟩,
    (shape_descriptor_range 5 {(0, 0)} 0).2 (by decide) (by decide)⟩

/-- Witness for C10's amended statement at the all-zero buffer `[0, 0]`:
construction fails with rebinarization, and fails without it since the
constant value 0 differs from 1. -/
theorem ImageBinary_init_monochromatic_witness :
    ImageBinary_init [0, 0] true = none ∧
      (ImageBinary_init [0, 0] false = none ↔ (0 : ℕ) ≠ 1) :=
  ImageBinary_init_monochromatic [0, 0] 0 (by decide) (by decide)
